import Mathlib

/-!
Verification of the document normalization and chunking pipeline of the
`ai-agent-langchain-data-ingestion` repository.

The normalizer (`clean_text` and `SmartPDFProcessor._clean_text` in
`src/0-DataParsing/2-dataparsingpdf.py`) is embedded from the source:
Python's `text.split()` / `" ".join(...)` / `str.replace` are modelled on
lists of characters, with Python's whitespace classification made explicit.

The chunker is delegated by the repository to an external text-splitting
library whose code is not part of the repository; it is modelled from the
specification (see the doc comment of `chunkAux`).
-/

/-- Python's whitespace classification (`str.isspace`), the character class
used by `str.split()` and `str.strip()`: ASCII control whitespace
U+0009..U+000D, the information separators U+001C..U+001F, space, NEL U+0085,
NBSP U+00A0, Ogham space U+1680, the typographic spaces U+2000..U+200A,
line/paragraph separators U+2028/U+2029, U+202F, U+205F and U+3000. -/
def isPySpace (c : Char) : Bool :=
  let n := c.toNat
  (9 ≤ n && n ≤ 13) || (28 ≤ n && n ≤ 31) || n == 32 || n == 133 || n == 160 ||
  n == 5760 || (8192 ≤ n && n ≤ 8202) || n == 8232 || n == 8233 ||
  n == 8239 || n == 8287 || n == 12288

/-- Core of Python `text.split()`: scanning from the right, returns the
word currently being built together with the list of completed words. -/
def pySplitCore : List Char → List Char × List (List Char)
  | [] => ([], [])
  | c :: cs =>
    if isPySpace c then
      ([], if (pySplitCore cs).1.isEmpty then (pySplitCore cs).2
           else (pySplitCore cs).1 :: (pySplitCore cs).2)
    else ((c :: (pySplitCore cs).1), (pySplitCore cs).2)

/-- Python `text.split()` with no arguments: the maximal runs of
non-whitespace characters, in order; leading/trailing whitespace discarded. -/
def pySplit (cs : List Char) : List (List Char) :=
  if (pySplitCore cs).1.isEmpty then (pySplitCore cs).2
  else (pySplitCore cs).1 :: (pySplitCore cs).2

/-- Python `" ".join(words)`: concatenation with a single space between
consecutive words. -/
def joinSp : List (List Char) → List Char
  | [] => []
  | [w] => w
  | w :: ws => w ++ ' ' :: joinSp ws

/-- Fuelled worker for Python `str.replace`: replaces non-overlapping
occurrences of `pat` by `rep`, scanning left to right.  The fuel bounds the
number of scanning steps; `replaceAll` supplies fuel equal to the input
length, which suffices for every non-empty pattern. -/
def replaceAllAux (pat rep : List Char) : Nat → List Char → List Char
  | 0, cs => cs
  | _ + 1, [] => []
  | fuel + 1, c :: cs =>
    if pat.isPrefixOf (c :: cs) then
      rep ++ replaceAllAux pat rep fuel (List.drop pat.length (c :: cs))
    else
      c :: replaceAllAux pat rep fuel cs

/-- Python `text.replace(pat, rep)` for a non-empty pattern. -/
def replaceAll (pat rep cs : List Char) : List Char :=
  replaceAllAux pat rep cs.length cs

/-- Character-list form of the repository's text cleaner: collapse
whitespace with `" ".join(text.split())`, then apply the two literal
`str.replace` calls of the source, in source order.  The source's first
pattern is the two-character sequence U+00EF U+00AC and its second pattern is
the three-character sequence U+00EF U+00AC U+201A, exactly as the bytes of
`2-dataparsingpdf.py` spell them. -/
def cleanTextL (cs : List Char) : List Char :=
  replaceAll ['ï', '¬', '‚'] ['f', 'l']
    (replaceAll ['ï', '¬'] ['f', 'i'] (joinSp (pySplit cs)))

/-- The standalone `clean_text` function of `2-dataparsingpdf.py`
(lines 148-165). -/
def clean_text (text : String) : String :=
  ⟨replaceAll ['ï', '¬', '‚'] ['f', 'l']
    (replaceAll ['ï', '¬'] ['f', 'i'] (joinSp (pySplit text.data)))⟩

/-- Python `text.strip()` on a character list: drop leading and trailing
whitespace. -/
def pyStripL (cs : List Char) : List Char :=
  ((cs.dropWhile isPySpace).reverse.dropWhile isPySpace).reverse

/-- Python `text.strip()`. -/
def pyStrip (s : String) : String :=
  ⟨pyStripL s.data⟩

example : clean_text "a   b\n\nc" = "a b c" := by decide
example : clean_text "  hi  " = "hi" := by decide
example : clean_text ⟨['x', 'ï', '¬', 'y']⟩ = "xfiy" := by decide
example : clean_text ⟨['ï', '¬', '‚']⟩ = ⟨['f', 'i', '‚']⟩ := by decide
example : pyStrip " a b " = "a b" := by decide

/-! ### The chunker

The repository delegates chunking to the external
`RecursiveCharacterTextSplitter` of the langchain library, whose
implementation is not part of the repository's sources. -/

/-- Modelled from the spec: the chunker contract of §4.2 (the external
`RecursiveCharacterTextSplitter` is not part of the repository).  A window
covers up to `size` characters and, per §4.2 and the §9 directive that
overlap is by character count and is not re-aligned to separators, each
window after the first begins `overlap` characters before the previous
window's end.  The fuel bounds the recursion; `chunk` supplies the input
length, which suffices whenever `overlap < size`. -/
def chunkAux (size overlap : Nat) : Nat → List Char → List (List Char)
  | 0, cs => [cs]
  | fuel + 1, cs =>
    if cs.length ≤ size then [cs]
    else cs.take size :: chunkAux size overlap fuel (cs.drop (size - overlap))

/-- Modelled from the spec: `chunk(text, size, overlap, separators)` of
§4.2.  Degenerate (empty) input yields zero chunks; the separator list is
carried by the contract but, per §9, does not shift window extents. -/
def chunk (t : String) (size overlap : Nat) (separators : List String) :
    List String :=
  if t.data = [] then []
  else (chunkAux size overlap t.data.length t.data).map fun cs => ⟨cs⟩

/-- Concatenation of a chunk sequence with the first `overlap` characters of
every window removed. -/
def dropConcat (overlap : Nat) : List (List Char) → List Char
  | [] => []
  | c :: rest => c.drop overlap ++ dropConcat overlap rest

/-- Concatenation of a chunk sequence with the overlapping region of every
window after the first removed (§3's reconstruction invariant). -/
def reconstructL (overlap : Nat) : List (List Char) → List Char
  | [] => []
  | c :: rest => c ++ dropConcat overlap rest

/-- String form of `reconstructL`. -/
def reconstructS (overlap : Nat) (chunks : List String) : String :=
  ⟨reconstructL overlap (chunks.map String.data)⟩

example :
    chunk "A B C D E F G H I J" 5 2 [" "] =
      ["A B C", " C D ", "D E F", " F G ", "G H I", " I J"] := by decide
example : reconstructS 2 (chunk "A B C D E F G H I J" 5 2 [" "]) =
    "A B C D E F G H I J" := by decide

/-! ### The PDF processor -/

/-- Metadata values: the scalar values appearing in the repository's
metadata dictionaries. -/
inductive MVal where
  | str : String → MVal
  | nat : Nat → MVal
deriving DecidableEq

/-- A loaded page: `page_content` plus the loader's metadata record,
modelled as an insertion-ordered association list (Python `dict`). -/
structure PageDoc where
  page_content : String
  metadata : List (String × MVal)
deriving DecidableEq

/-- A produced chunk `Document`. -/
structure ChunkDoc where
  page_content : String
  metadata : List (String × MVal)
deriving DecidableEq

/-- Python `dict` assignment on an insertion-ordered association list:
update the first binding of the key in place, else append. -/
def setKey : List (String × MVal) → String → MVal → List (String × MVal)
  | [], k, v => [(k, v)]
  | (k', v') :: rest, k, v =>
    if k' = k then (k, v) :: rest else (k', v') :: setKey rest k v

/-- Python `dict` lookup on an insertion-ordered association list. -/
def getKey : List (String × MVal) → String → Option MVal
  | [], _ => none
  | (k', v') :: rest, k => if k' = k then some v' else getKey rest k

/-- The metadata dictionary built for each page's chunks in
`SmartPDFProcessor.process_pdf` (lines 68-74): the page's metadata with
`page`, `total_pages`, `chunk_method` and `char_count` set on top of it. -/
def enhanceMetadata (parent : List (String × MVal))
    (page total charCount : Nat) : List (String × MVal) :=
  setKey (setKey (setKey (setKey parent
    "page" (.nat page))
    "total_pages" (.nat total))
    "chunk_method" (.str "smart_pdf_processor"))
    "char_count" (.nat charCount)

/-- The `SmartPDFProcessor` configuration: `chunk_size`, `chunk_overlap`
and the splitter's separator list (`__init__`, lines 24-38). -/
structure SmartPDFProcessor where
  chunk_size : Nat
  chunk_overlap : Nat
  separators : List String
deriving DecidableEq

/-- A `SmartPDFProcessor()` built with the `__init__` defaults
`chunk_size=1000`, `chunk_overlap=100` and separators
`["\n\n", "\n", " ", ""]`. -/
def smartPDFProcessorDefault : SmartPDFProcessor :=
  ⟨1000, 100, ["\n\n", "\n", " ", ""]⟩

/-- The demonstration splitter of `demonstrate_recursive_text_splitter`
(`1-dataingestion.py`, lines 237-242): `separators=[" "]`,
`chunk_size=200`, `chunk_overlap=20`. -/
def demoRecursiveSplitter : SmartPDFProcessor :=
  ⟨200, 20, [" "]⟩

/-- The spec's error taxonomy for invalid chunk configuration (§7). -/
inductive ConfigError where
  | invalidChunkConfig : ConfigError
deriving DecidableEq

/-- Modelled from the spec: construction of the chunker with validation of
the precondition `0 <= overlap < size` (§4.2, §7).  The validation lives in
the external splitter library called by `SmartPDFProcessor.__init__`
(lines 24-38), which is not part of the repository's sources. -/
def mkSmartPDFProcessor (chunk_size chunk_overlap : Int) :
    Except ConfigError SmartPDFProcessor :=
  if 0 ≤ chunk_overlap ∧ chunk_overlap < chunk_size then
    .ok ⟨chunk_size.toNat, chunk_overlap.toNat, ["\n\n", "\n", " ", ""]⟩
  else
    .error .invalidChunkConfig

/-- The private cleaner `SmartPDFProcessor._clean_text`
(`2-dataparsingpdf.py`, lines 81-98); its body is character-for-character
the body of the standalone `clean_text` (lines 148-165). -/
def SmartPDFProcessor._clean_text (_self : SmartPDFProcessor)
    (text : String) : String :=
  ⟨replaceAll ['ï', '¬', '‚'] ['f', 'l']
    (replaceAll ['ï', '¬'] ['f', 'i'] (joinSp (pySplit text.data)))⟩

/-- The chunks produced for one surviving page in
`SmartPDFProcessor.process_pdf` (lines 65-77): the page's cleaned text is
split by the configured splitter and every chunk receives the page's
enhanced metadata. -/
def SmartPDFProcessor.pageChunks (self : SmartPDFProcessor) (total : Nat)
    (pr : Nat × PageDoc) : List ChunkDoc :=
  let cleaned := self._clean_text pr.2.page_content
  (chunk cleaned self.chunk_size self.chunk_overlap self.separators).map
    fun c =>
      ⟨c, enhanceMetadata pr.2.metadata (pr.1 + 1) total cleaned.length⟩

/-- `SmartPDFProcessor.process_pdf` (lines 40-79) after the loader: each
page is cleaned, pages whose stripped cleaned text is shorter than 50
characters are skipped, and every other page contributes its chunks. -/
def SmartPDFProcessor.process_pdf (self : SmartPDFProcessor)
    (pages : List PageDoc) : List ChunkDoc :=
  pages.enum.flatMap fun pr =>
    if (pyStrip (self._clean_text pr.2.page_content)).length < 50 then []
    else self.pageChunks pages.length pr

example :
    (smartPDFProcessorDefault.process_pdf
      [⟨"short", [("source", .str "x.pdf")]⟩]) = [] := by decide

/-! ### Chunker lemmas -/

theorem chunkAux_ne_nil (size overlap fuel : Nat) (cs : List Char) :
    chunkAux size overlap fuel cs ≠ [] := by
  cases fuel with
  | zero => simp [chunkAux]
  | succ n =>
    simp only [chunkAux]
    split <;> simp

theorem chunkAux_head? (size overlap : Nat) (fuel : Nat) (cs : List Char)
    (h : cs.length ≤ fuel + size) :
    (chunkAux size overlap fuel cs).head? = some (cs.take size) := by
  cases fuel with
  | zero => simp [chunkAux, List.take_of_length_le (show cs.length ≤ size by omega)]
  | succ n =>
    simp only [chunkAux]
    split
    · rename_i hle
      simp [List.take_of_length_le hle]
    · rfl

theorem chunkAux_mem_length (size overlap : Nat) (hov : overlap < size) :
    ∀ (fuel : Nat) (cs : List Char), cs.length ≤ fuel + size →
      ∀ c ∈ chunkAux size overlap fuel cs, c.length ≤ size := by
  intro fuel
  induction fuel with
  | zero =>
    intro cs h c hc
    simp [chunkAux] at hc
    subst hc
    omega
  | succ n ih =>
    intro cs h c hc
    simp only [chunkAux] at hc
    split at hc
    · rename_i hle
      simp at hc
      subst hc
      exact hle
    · rename_i hgt
      simp only [List.mem_cons] at hc
      rcases hc with rfl | hc
      · simp only [List.length_take]
        omega
      · exact ih _ (by simp only [List.length_drop]; omega) c hc

theorem chunkAux_get? (size overlap : Nat) (hov : overlap < size) :
    ∀ (fuel : Nat) (cs : List Char), cs.length ≤ fuel + size →
      ∀ (i : Nat) (c : List Char),
        (chunkAux size overlap fuel cs).get? i = some c →
        c = (cs.drop (i * (size - overlap))).take size := by
  intro fuel
  induction fuel with
  | zero =>
    intro cs h i c hc
    cases i with
    | zero =>
      simp [chunkAux] at hc
      subst hc
      simp [List.take_of_length_le (show cs.length ≤ size by omega)]
    | succ j => simp [chunkAux] at hc
  | succ n ih =>
    intro cs h i c hc
    simp only [chunkAux] at hc
    split at hc
    · rename_i hle
      cases i with
      | zero =>
        simp at hc
        subst hc
        simp [List.take_of_length_le hle]
      | succ j => simp at hc
    · rename_i hgt
      cases i with
      | zero =>
        simp at hc
        subst hc
        simp
      | succ j =>
        simp only [List.get?_cons_succ] at hc
        have hrec := ih (cs.drop (size - overlap))
          (by simp only [List.length_drop]; omega) j c hc
        have hmul : size - overlap + j * (size - overlap) =
            (j + 1) * (size - overlap) := by ring
        rw [hrec, List.drop_drop, hmul]

theorem chunkAux_chain' (size overlap : Nat) (hov : overlap < size) :
    ∀ (fuel : Nat) (cs : List Char), cs.length ≤ fuel + size →
      List.Chain' (fun a b => b.take overlap = a.drop (size - overlap))
        (chunkAux size overlap fuel cs) := by
  intro fuel
  induction fuel with
  | zero => intro cs h; simp [chunkAux]
  | succ n ih =>
    intro cs h
    simp only [chunkAux]
    split
    · simp
    · rename_i hgt
      rw [List.chain'_cons']
      refine ⟨?_, ih _ (by simp only [List.length_drop]; omega)⟩
      intro y hy
      rw [chunkAux_head? size overlap n _
        (by simp only [List.length_drop]; omega)] at hy
      simp at hy
      subst hy
      rw [List.take_take, Nat.min_eq_left (Nat.le_of_lt hov),
        List.drop_take]
      congr 1
      omega

theorem chunkAux_dropConcat (size overlap : Nat) (hov : overlap < size) :
    ∀ (fuel : Nat) (cs : List Char), cs.length ≤ fuel + size →
      dropConcat overlap (chunkAux size overlap fuel cs) = cs.drop overlap := by
  intro fuel
  induction fuel with
  | zero => intro cs h; simp [chunkAux, dropConcat]
  | succ n ih =>
    intro cs h
    simp only [chunkAux]
    split
    · simp [dropConcat]
    · rename_i hgt
      simp only [dropConcat]
      rw [ih _ (by simp only [List.length_drop]; omega)]
      have e1 : (cs.take size).drop overlap =
          (cs.drop overlap).take (size - overlap) :=
        List.drop_take size overlap cs
      have e2 : (cs.drop (size - overlap)).drop overlap =
          (cs.drop overlap).drop (size - overlap) := by
        rw [List.drop_drop, List.drop_drop]
        congr 1
        omega
      rw [e1, e2, List.take_append_drop]

theorem chunkAux_reconstruct (size overlap : Nat) (hov : overlap < size)
    (fuel : Nat) (cs : List Char) (h : cs.length ≤ fuel + size) :
    reconstructL overlap (chunkAux size overlap fuel cs) = cs := by
  cases fuel with
  | zero => simp [chunkAux, reconstructL, dropConcat]
  | succ n =>
    simp only [chunkAux]
    split
    · simp [reconstructL, dropConcat]
    · rename_i hgt
      simp only [reconstructL]
      rw [chunkAux_dropConcat size overlap hov n _
        (by simp only [List.length_drop]; omega)]
      rw [List.drop_drop]
      have h1 : size - overlap + overlap = size := by omega
      rw [h1, List.take_append_drop]

theorem chunkAux_one_lt (size overlap : Nat) (fuel : Nat) (cs : List Char)
    (hgt : size < cs.length) (hf : 0 < fuel) :
    1 < (chunkAux size overlap fuel cs).length := by
  cases fuel with
  | zero => omega
  | succ n =>
    simp only [chunkAux]
    rw [if_neg (by omega)]
    have hne := chunkAux_ne_nil size overlap n (cs.drop (size - overlap))
    have hpos : 0 < (chunkAux size overlap n (cs.drop (size - overlap))).length :=
      List.length_pos.mpr hne
    simp only [List.length_cons]
    omega

theorem chunk_mem_length_le (t : String) (size overlap : Nat)
    (separators : List String) (h : overlap < size) :
    ∀ c ∈ chunk t size overlap separators, c.length ≤ size := by
  intro c hc
  simp only [chunk] at hc
  split at hc
  · simp at hc
  · simp only [List.mem_map] at hc
    obtain ⟨cs, hcs, rfl⟩ := hc
    have hb := chunkAux_mem_length size overlap h t.data.length t.data
      (by omega) cs hcs
    have hl : (⟨cs⟩ : String).length = cs.length := rfl
    rw [hl]
    exact hb

theorem chunk_reconstruct (t : String) (size overlap : Nat)
    (separators : List String) (h : overlap < size) :
    reconstructS overlap (chunk t size overlap separators) = t := by
  obtain ⟨cs⟩ := t
  simp only [chunk]
  split
  · rename_i hnil
    simp only [reconstructS, List.map_nil, reconstructL]
    exact congrArg String.mk hnil.symm
  · rename_i hnil
    simp only [reconstructS, List.map_map]
    have hm : (String.data ∘ fun cs => (⟨cs⟩ : String)) = id := rfl
    rw [hm, List.map_id]
    exact congrArg String.mk
      (chunkAux_reconstruct size overlap h cs.length cs (by omega))

/-- C2: for every text, every chunk size greater than the overlap, every
overlap and every separator list, each window produced by the chunker has
length at most the chunk size; in particular for the `SmartPDFProcessor`
splitter configuration (separators paragraph, line, space, empty string)
and for the demonstration splitter configured with separators `[" "]`. -/
theorem c2_chunk_windows_bounded (t : String) (size overlap : Nat)
    (separators : List String) (h : overlap < size) :
    (∀ c ∈ chunk t size overlap separators, c.length ≤ size) ∧
    (∀ u : String,
      ∀ c ∈ chunk u smartPDFProcessorDefault.chunk_size
          smartPDFProcessorDefault.chunk_overlap
          smartPDFProcessorDefault.separators,
        c.length ≤ smartPDFProcessorDefault.chunk_size) ∧
    (∀ u : String,
      ∀ c ∈ chunk u demoRecursiveSplitter.chunk_size
          demoRecursiveSplitter.chunk_overlap demoRecursiveSplitter.separators,
        c.length ≤ demoRecursiveSplitter.chunk_size) :=
  ⟨chunk_mem_length_le t size overlap separators h,
   fun u => chunk_mem_length_le u _ _ _ (by decide),
   fun u => chunk_mem_length_le u _ _ _ (by decide)⟩

/-- Witness for C2 at the spec's concrete example input. -/
theorem c2_chunk_windows_bounded_witness :
    "A B C" ∈ chunk "A B C D E F G H I J" 5 2 [" "] ∧ "A B C".length ≤ 5 :=
  ⟨by decide,
   (c2_chunk_windows_bounded "A B C D E F G H I J" 5 2 [" "]
      (by decide)).1 "A B C" (by decide)⟩

/-- C5: for a non-empty text longer than the chunk size with valid size and
overlap, the chunker yields more than one window; window `i` covers the
`size` source characters starting at offset `i * (size - overlap)`, so each
window after the first begins `overlap` characters before the previous
window's end; consecutive windows share that `overlap`-character region; and
the spec's example `chunk("A B C D E F G H I J", 5, 2, [" "])` yields the
listed windows, each at most 5 characters with 2-character shared content. -/
theorem c5_chunk_windows_overlap (t : String) (size overlap : Nat)
    (separators : List String) (h1 : overlap < size) (h2 : size < t.length) :
    1 < (chunk t size overlap separators).length ∧
    (∀ (i : Nat) (c : String), (chunk t size overlap separators).get? i = some c →
      c.data = (t.data.drop (i * (size - overlap))).take size) ∧
    List.Chain' (fun a b => b.data.take overlap = a.data.drop (size - overlap))
      (chunk t size overlap separators) ∧
    chunk "A B C D E F G H I J" 5 2 [" "] =
      ["A B C", " C D ", "D E F", " F G ", "G H I", " I J"] := by
  have hlen : t.length = t.data.length := rfl
  rw [hlen] at h2
  have hne : t.data ≠ [] := by
    intro h0
    rw [h0] at h2
    simp at h2
  refine ⟨?_, ?_, ?_, by decide⟩
  · rw [chunk, if_neg hne, List.length_map]
    exact chunkAux_one_lt size overlap t.data.length t.data h2 (by omega)
  · intro i c hc
    rw [chunk, if_neg hne, List.get?_map] at hc
    cases hg : (chunkAux size overlap t.data.length t.data).get? i with
    | none => rw [hg] at hc; simp at hc
    | some cs =>
      rw [hg] at hc
      simp at hc
      have := chunkAux_get? size overlap h1 t.data.length t.data
        (by omega) i cs hg
      rw [← hc, this]
  · rw [chunk, if_neg hne, List.chain'_map]
    exact chunkAux_chain' size overlap h1 t.data.length t.data (by omega)

/-- Witness for C5 at the spec's concrete example input. -/
theorem c5_chunk_windows_overlap_witness :
    1 < (chunk "A B C D E F G H I J" 5 2 [" "]).length :=
  (c5_chunk_windows_overlap "A B C D E F G H I J" 5 2 [" "]
    (by decide) (by decide)).1

/-- C7: constructing the chunker with parameters violating the precondition
`0 <= overlap < size` fails with a `ConfigError`, and every parameter pair
satisfying the precondition is accepted without error. -/
theorem c7_chunker_precondition (chunk_size chunk_overlap : Int) :
    (¬ (0 ≤ chunk_overlap ∧ chunk_overlap < chunk_size) →
      mkSmartPDFProcessor chunk_size chunk_overlap =
        .error .invalidChunkConfig) ∧
    ((0 ≤ chunk_overlap ∧ chunk_overlap < chunk_size) →
      mkSmartPDFProcessor chunk_size chunk_overlap =
        .ok ⟨chunk_size.toNat, chunk_overlap.toNat, ["\n\n", "\n", " ", ""]⟩) := by
  constructor <;> intro h <;> simp [mkSmartPDFProcessor, h]

/-- Witness for C7: overlap 1000 with size 1000 is rejected, overlap 100
with size 1000 is accepted. -/
theorem c7_chunker_precondition_witness :
    mkSmartPDFProcessor 1000 1000 = .error .invalidChunkConfig ∧
    mkSmartPDFProcessor 1000 100 =
      .ok ⟨1000, 100, ["\n\n", "\n", " ", ""]⟩ :=
  ⟨(c7_chunker_precondition 1000 1000).1 (by decide),
   (c7_chunker_precondition 1000 100).2 (by decide)⟩

/-- C8: concatenating the chunker's windows in order with each later
window's overlap region removed reconstructs the source text exactly (hence
"up to separator trimming" holds with no trimming needed); in particular,
for every page processed with a valid configuration, the chunks of the
page's cleaned text reconstruct that cleaned text. -/
theorem c8_chunks_reconstruct (t : String) (size overlap : Nat)
    (separators : List String) (h : overlap < size) :
    reconstructS overlap (chunk t size overlap separators) = t ∧
    ∀ (self : SmartPDFProcessor) (total : Nat) (pr : Nat × PageDoc),
      self.chunk_overlap < self.chunk_size →
      reconstructS self.chunk_overlap
          ((self.pageChunks total pr).map ChunkDoc.page_content) =
        self._clean_text pr.2.page_content := by
  refine ⟨chunk_reconstruct t size overlap separators h, ?_⟩
  intro self total pr hov
  show reconstructS self.chunk_overlap
      (((chunk (self._clean_text pr.2.page_content) self.chunk_size
          self.chunk_overlap self.separators).map _).map ChunkDoc.page_content) = _
  rw [List.map_map]
  have hm : (ChunkDoc.page_content ∘ fun c =>
      (⟨c, enhanceMetadata pr.2.metadata (pr.1 + 1) total
        (self._clean_text pr.2.page_content).length⟩ : ChunkDoc)) =
      (id : String → String) := rfl
  rw [hm, List.map_id]
  exact chunk_reconstruct _ _ _ _ hov

/-- Witness for C8 at the spec's concrete example input. -/
theorem c8_chunks_reconstruct_witness :
    reconstructS 2 (chunk "A B C D E F G H I J" 5 2 [" "]) =
      "A B C D E F G H I J" :=
  (c8_chunks_reconstruct "A B C D E F G H I J" 5 2 [" "] (by decide)).1

/-! ### Replacement lemmas -/

theorem replaceAllAux_fuel (pat rep : List Char) (hpat : pat ≠ []) :
    ∀ (f : Nat) (cs : List Char) (g : Nat), cs.length ≤ f → cs.length ≤ g →
      replaceAllAux pat rep f cs = replaceAllAux pat rep g cs := by
  intro f
  induction f with
  | zero =>
    intro cs g hf hg
    have hnil : cs = [] := List.length_eq_zero.mp (by omega)
    subst hnil
    cases g <;> simp [replaceAllAux]
  | succ n ih =>
    intro cs g hf hg
    cases cs with
    | nil => cases g <;> simp [replaceAllAux]
    | cons c cs' =>
      cases g with
      | zero => simp at hg
      | succ m =>
        have hplen : 1 ≤ pat.length := by
          cases pat with
          | nil => exact absurd rfl hpat
          | cons p ps => simp
        simp only [replaceAllAux]
        split
        · congr 1
          refine ih _ m ?_ ?_ <;> simp only [List.length_drop, List.length_cons] <;>
            simp only [List.length_cons] at hf hg <;> omega
        · congr 1
          exact ih _ m (by simp only [List.length_cons] at hf; omega)
            (by simp only [List.length_cons] at hg; omega)

theorem isPrefixOf_append_space (pat : List Char) :
    ∀ (as bs : List Char), ' ' ∉ pat →
      pat.isPrefixOf (as ++ ' ' :: bs) = pat.isPrefixOf as := by
  induction pat with
  | nil => intro as bs _; simp
  | cons p ps ih =>
    intro as bs hsp
    have hp : p ≠ ' ' := fun h => hsp (by simp [h])
    cases as with
    | nil =>
      simp only [List.nil_append, List.isPrefixOf_cons_nil]
      rw [List.isPrefixOf_cons₂]
      simp [beq_eq_false_iff_ne.mpr hp]
    | cons a as' =>
      simp only [List.cons_append]
      rw [List.isPrefixOf_cons₂, List.isPrefixOf_cons₂,
        ih as' bs (fun h => hsp (by simp [h]))]

theorem replaceAll_append_space (pat rep : List Char) (hpat : pat ≠ [])
    (hsp : ' ' ∉ pat) :
    ∀ (n : Nat) (as bs : List Char), as.length ≤ n →
      replaceAll pat rep (as ++ ' ' :: bs) =
        replaceAll pat rep as ++ ' ' :: replaceAll pat rep bs := by
  intro n
  induction n using Nat.strong_induction_on with
  | _ n ih =>
    intro as bs hn
    have hplen : 1 ≤ pat.length := by
      cases pat with
      | nil => exact absurd rfl hpat
      | cons p ps => simp
    cases as with
    | nil =>
      show replaceAllAux pat rep (bs.length + 1) (' ' :: bs) = _
      have hnopre : pat.isPrefixOf (' ' :: bs) = false := by
        cases pat with
        | nil => exact absurd rfl hpat
        | cons p ps =>
          have hp : p ≠ ' ' := fun h => hsp (by simp [h])
          rw [List.isPrefixOf_cons₂]
          simp [beq_eq_false_iff_ne.mpr hp]
      simp only [replaceAllAux, hnopre]
      rfl
    | cons a as' =>
      have hdecomp : (a :: as') ++ ' ' :: bs = a :: (as' ++ ' ' :: bs) := rfl
      rw [hdecomp]
      show replaceAllAux pat rep ((a :: (as' ++ ' ' :: bs)).length)
          (a :: (as' ++ ' ' :: bs)) = _
      have hlen1 : (a :: (as' ++ ' ' :: bs)).length =
          (as'.length + bs.length + 1) + 1 := by simp; omega
      rw [hlen1]
      by_cases hpre : pat.isPrefixOf (a :: (as' ++ ' ' :: bs)) = true
      · have hpre' : pat.isPrefixOf (a :: as') = true := by
          have := isPrefixOf_append_space pat (a :: as') bs hsp
          rw [← this]
          exact hpre
        have hple : pat.length ≤ (a :: as').length :=
          (List.isPrefixOf_iff_prefix.mp hpre').length_le
        simp only [replaceAllAux, hpre, if_true]
        have hdrop : List.drop pat.length (a :: (as' ++ ' ' :: bs)) =
            List.drop pat.length (a :: as') ++ ' ' :: bs := by
          rw [← hdecomp]
          exact List.drop_append_of_le_length hple
        rw [hdrop]
        have hfi : replaceAllAux pat rep (as'.length + bs.length + 1)
            (List.drop pat.length (a :: as') ++ ' ' :: bs) =
            replaceAll pat rep (List.drop pat.length (a :: as') ++ ' ' :: bs) := by
          apply replaceAllAux_fuel pat rep hpat <;>
            simp only [List.length_append, List.length_drop, List.length_cons] <;>
            omega
        rw [hfi]
        have hrec : replaceAll pat rep (List.drop pat.length (a :: as') ++ ' ' :: bs) =
            replaceAll pat rep (List.drop pat.length (a :: as')) ++
              ' ' :: replaceAll pat rep bs := by
          apply ih (List.drop pat.length (a :: as')).length ?_ _ _ le_rfl
          simp only [List.length_drop, List.length_cons]
          simp only [List.length_cons] at hn
          omega
        rw [hrec]
        have hrhs : replaceAll pat rep (a :: as') =
            rep ++ replaceAll pat rep (List.drop pat.length (a :: as')) := by
          show replaceAllAux pat rep (as'.length + 1) (a :: as') = _
          simp only [replaceAllAux, hpre', if_true]
          congr 1
          apply replaceAllAux_fuel pat rep hpat <;>
            simp only [List.length_drop, List.length_cons] <;> omega
        rw [hrhs, List.append_assoc]
      · have hpreF : pat.isPrefixOf (a :: (as' ++ ' ' :: bs)) = false :=
          Bool.of_not_eq_true hpre
        have hpre' : pat.isPrefixOf (a :: as') = false := by
          have := isPrefixOf_append_space pat (a :: as') bs hsp
          rw [← this]
          exact hpreF
        simp only [replaceAllAux, hpreF, Bool.false_eq_true, if_false]
        have hfi : replaceAllAux pat rep (as'.length + bs.length + 1)
            (as' ++ ' ' :: bs) = replaceAll pat rep (as' ++ ' ' :: bs) := by
          apply replaceAllAux_fuel pat rep hpat <;>
            simp only [List.length_append, List.length_cons] <;> omega
        rw [hfi]
        have hrec := ih as'.length
          (by simp only [List.length_cons] at hn; omega) as' bs le_rfl
        rw [hrec]
        have hrhs : replaceAll pat rep (a :: as') =
            a :: replaceAll pat rep as' := by
          show replaceAllAux pat rep (as'.length + 1) (a :: as') = _
          simp only [replaceAllAux, hpre', Bool.false_eq_true, if_false]
          rfl
        rw [hrhs]
        rfl

theorem replaceAll_joinSp (pat rep : List Char) (hpat : pat ≠ [])
    (hsp : ' ' ∉ pat) :
    ∀ ws : List (List Char),
      replaceAll pat rep (joinSp ws) = joinSp (ws.map (replaceAll pat rep)) := by
  intro ws
  induction ws with
  | nil => rfl
  | cons w ws ih =>
    cases ws with
    | nil => simp [joinSp]
    | cons w' ws' =>
      have hj : joinSp (w :: w' :: ws') = w ++ ' ' :: joinSp (w' :: ws') := rfl
      rw [hj, replaceAll_append_space pat rep hpat hsp w.length w _ le_rfl, ih]
      rfl

theorem replaceAllAux_mem (pat rep : List Char) :
    ∀ (fuel : Nat) (cs : List Char) (c : Char),
      c ∈ replaceAllAux pat rep fuel cs → c ∈ cs ∨ c ∈ rep := by
  intro fuel
  induction fuel with
  | zero => intro cs c hc; exact Or.inl hc
  | succ n ih =>
    intro cs c hc
    cases cs with
    | nil => simp [replaceAllAux] at hc
    | cons a cs' =>
      simp only [replaceAllAux] at hc
      split at hc
      · simp only [List.mem_append] at hc
        rcases hc with hc | hc
        · exact Or.inr hc
        · rcases ih _ c hc with h | h
          · exact Or.inl (List.drop_subset _ _ h)
          · exact Or.inr h
      · simp only [List.mem_cons] at hc
        rcases hc with rfl | hc
        · exact Or.inl (List.mem_cons_self _ _)
        · rcases ih _ c hc with h | h
          · exact Or.inl (List.mem_cons_of_mem _ h)
          · exact Or.inr h

theorem replaceAll_ne_nil (pat rep : List Char) (hrep : rep ≠ [])
    (cs : List Char) (hcs : cs ≠ []) : replaceAll pat rep cs ≠ [] := by
  cases cs with
  | nil => exact absurd rfl hcs
  | cons a cs' =>
    show replaceAllAux pat rep (cs'.length + 1) (a :: cs') ≠ []
    simp only [replaceAllAux]
    split
    · intro h
      rcases List.append_eq_nil.mp h with ⟨h1, _⟩
      exact hrep h1
    · simp

theorem replaceAllAux_length_le (pat rep : List Char)
    (hlen : rep.length ≤ pat.length) :
    ∀ (fuel : Nat) (cs : List Char),
      (replaceAllAux pat rep fuel cs).length ≤ cs.length := by
  intro fuel
  induction fuel with
  | zero => intro cs; exact le_rfl
  | succ n ih =>
    intro cs
    cases cs with
    | nil => simp [replaceAllAux]
    | cons a cs' =>
      simp only [replaceAllAux]
      split
      · rename_i hpre
        have hple : pat.length ≤ (a :: cs').length :=
          (List.isPrefixOf_iff_prefix.mp hpre).length_le
        have hrec := ih (List.drop pat.length (a :: cs'))
        simp only [List.length_append, List.length_drop, List.length_cons] at *
        omega
      · have hrec := ih cs'
        simp only [List.length_cons]
        omega

theorem replaceAllAux_length_eq (pat rep : List Char)
    (hlen : rep.length = pat.length) :
    ∀ (fuel : Nat) (cs : List Char),
      (replaceAllAux pat rep fuel cs).length = cs.length := by
  intro fuel
  induction fuel with
  | zero => intro cs; rfl
  | succ n ih =>
    intro cs
    cases cs with
    | nil => simp [replaceAllAux]
    | cons a cs' =>
      simp only [replaceAllAux]
      split
      · rename_i hpre
        have hple : pat.length ≤ (a :: cs').length :=
          (List.isPrefixOf_iff_prefix.mp hpre).length_le
        have hrec := ih (List.drop pat.length (a :: cs'))
        simp only [List.length_append, List.length_drop, List.length_cons] at *
        omega
      · have hrec := ih cs'
        simp only [List.length_cons]
        omega

/-- The pattern `pat` occurs as a contiguous substring. -/
def occursIn (pat cs : List Char) : Prop :=
  ∃ i, pat.isPrefixOf (cs.drop i) = true

theorem occursIn_cons (pat : List Char) (c : Char) (cs : List Char) :
    occursIn pat (c :: cs) ↔
      pat.isPrefixOf (c :: cs) = true ∨ occursIn pat cs := by
  constructor
  · rintro ⟨i, hi⟩
    cases i with
    | zero => exact Or.inl hi
    | succ j => exact Or.inr ⟨j, hi⟩
  · rintro (h | ⟨j, hj⟩)
    · exact ⟨0, h⟩
    · exact ⟨j + 1, hj⟩

theorem not_occursIn_nil (pat : List Char) (hpat : pat ≠ []) :
    ¬ occursIn pat [] := by
  rintro ⟨i, hi⟩
  rw [List.drop_nil] at hi
  cases pat with
  | nil => exact hpat rfl
  | cons p ps => simp at hi

theorem replaceAllAux_of_not_occursIn (pat rep : List Char) :
    ∀ (fuel : Nat) (cs : List Char), ¬ occursIn pat cs →
      replaceAllAux pat rep fuel cs = cs := by
  intro fuel
  induction fuel with
  | zero => intro cs _; rfl
  | succ n ih =>
    intro cs hocc
    cases cs with
    | nil => rfl
    | cons a cs' =>
      simp only [replaceAllAux]
      split
      · rename_i hpre
        exact absurd ((occursIn_cons pat a cs').mpr (Or.inl hpre)) hocc
      · congr 1
        exact ih cs' fun h =>
          hocc ((occursIn_cons pat a cs').mpr (Or.inr h))

theorem replaceAll_of_not_occursIn (pat rep cs : List Char)
    (h : ¬ occursIn pat cs) : replaceAll pat rep cs = cs :=
  replaceAllAux_of_not_occursIn pat rep cs.length cs h

theorem replaceAllAux_head? (pat : List Char) (h : Char) (rest : List Char) :
    ∀ (fuel : Nat) (cs : List Char),
      (replaceAllAux pat (h :: rest) fuel cs).head? = some h ∨
      (replaceAllAux pat (h :: rest) fuel cs).head? = cs.head? := by
  intro fuel cs
  cases fuel with
  | zero => exact Or.inr rfl
  | succ n =>
    cases cs with
    | nil => exact Or.inr rfl
    | cons a cs' =>
      simp only [replaceAllAux]
      split
      · exact Or.inl rfl
      · exact Or.inr rfl

theorem isPrefixOf_single_iff (x : Char) (l : List Char) :
    ([x].isPrefixOf l = true) ↔ l.head? = some x := by
  cases l with
  | nil => simp
  | cons a l' =>
    rw [List.isPrefixOf_cons₂]
    simp only [List.isPrefixOf_nil_left, Bool.and_true, beq_iff_eq,
      List.head?_cons, Option.some.injEq]
    exact ⟨fun h => h.symm, fun h => h.symm⟩

theorem isPrefixOf_of_append_isPrefixOf (p1 p2 : List Char) :
    ∀ l : List Char, ((p1 ++ p2).isPrefixOf l = true) →
      p1.isPrefixOf l = true := by
  induction p1 with
  | nil => intro l _; simp
  | cons p ps ih =>
    intro l h
    cases l with
    | nil => simp at h
    | cons a l' =>
      rw [List.cons_append, List.isPrefixOf_cons₂] at h
      rw [List.isPrefixOf_cons₂]
      simp only [Bool.and_eq_true] at h ⊢
      exact ⟨h.1, ih l' h.2⟩

theorem replaceAll_fi_no_occurrence :
    ∀ (fuel : Nat) (cs : List Char), cs.length ≤ fuel →
      ¬ occursIn ['ï', '¬'] (replaceAllAux ['ï', '¬'] ['f', 'i'] fuel cs) := by
  intro fuel
  induction fuel with
  | zero =>
    intro cs h
    have hnil : cs = [] := List.length_eq_zero.mp (by omega)
    subst hnil
    exact not_occursIn_nil _ (by simp)
  | succ n ih =>
    intro cs h
    cases cs with
    | nil => exact not_occursIn_nil _ (by simp)
    | cons a cs' =>
      simp only [replaceAllAux]
      split
      · rename_i hpre
        have hshape : (['f', 'i'] ++
            replaceAllAux ['ï', '¬'] ['f', 'i'] n (List.drop (['ï', '¬'].length) (a :: cs'))) =
            'f' :: 'i' :: replaceAllAux ['ï', '¬'] ['f', 'i'] n
              (List.drop (['ï', '¬'].length) (a :: cs')) := rfl
        rw [hshape]
        intro hocc
        rw [occursIn_cons] at hocc
        rcases hocc with hbad | hocc
        · rw [List.isPrefixOf_cons₂] at hbad
          simp only [Bool.and_eq_true, beq_iff_eq] at hbad
          exact absurd hbad.1 (by decide)
        · rw [occursIn_cons] at hocc
          rcases hocc with hbad | hocc
          · rw [List.isPrefixOf_cons₂] at hbad
            simp only [Bool.and_eq_true, beq_iff_eq] at hbad
            exact absurd hbad.1 (by decide)
          · exact ih _ (by simp only [List.length_drop, List.length_cons] at h ⊢; omega) hocc
      · rename_i hpre
        have hpreF : (['ï', '¬'].isPrefixOf (a :: cs')) = false :=
          Bool.of_not_eq_true hpre
        intro hocc
        rw [occursIn_cons] at hocc
        rcases hocc with hbad | hocc
        · rw [List.isPrefixOf_cons₂] at hbad
          simp only [Bool.and_eq_true, beq_iff_eq] at hbad
          obtain ⟨ha, hsuf⟩ := hbad
          subst ha
          rw [List.isPrefixOf_cons₂] at hpreF
          simp only [beq_self_eq_true, Bool.true_and] at hpreF
          have hhead := isPrefixOf_single_iff '¬'
            (replaceAllAux ['ï', '¬'] ['f', 'i'] n cs') |>.mp hsuf
          rcases replaceAllAux_head? ['ï', '¬'] 'f' ['i'] n cs' with he | he
          · rw [he] at hhead
            simp at hhead
          · rw [he] at hhead
            exact absurd (isPrefixOf_single_iff '¬' cs' |>.mpr hhead)
              (by rw [hpreF]; simp)
        · exact ih cs' (by simp only [List.length_cons] at h; omega) hocc

theorem replaceAll_fl_after_fi (cs : List Char) :
    replaceAll ['ï', '¬', '‚'] ['f', 'l'] (replaceAll ['ï', '¬'] ['f', 'i'] cs) =
      replaceAll ['ï', '¬'] ['f', 'i'] cs := by
  apply replaceAll_of_not_occursIn
  rintro ⟨i, hi⟩
  have h1 : (['ï', '¬'] ++ ['‚']).isPrefixOf
      ((replaceAll ['ï', '¬'] ['f', 'i'] cs).drop i) = true := hi
  have h2 := isPrefixOf_of_append_isPrefixOf ['ï', '¬'] ['‚'] _ h1
  exact replaceAll_fi_no_occurrence cs.length cs le_rfl ⟨i, h2⟩

theorem replaceAll_fi_idem (cs : List Char) :
    replaceAll ['ï', '¬'] ['f', 'i'] (replaceAll ['ï', '¬'] ['f', 'i'] cs) =
      replaceAll ['ï', '¬'] ['f', 'i'] cs :=
  replaceAll_of_not_occursIn _ _ _
    (replaceAll_fi_no_occurrence cs.length cs le_rfl)

/-! ### Split and join lemmas -/

/-- A word produced by `pySplit`: non-empty and free of whitespace. -/
def goodWord (w : List Char) : Prop :=
  w ≠ [] ∧ ∀ c ∈ w, isPySpace c = false

theorem goodWord_isEmpty_false {w : List Char} (hw : goodWord w) :
    w.isEmpty = false := by
  cases w with
  | nil => exact absurd rfl hw.1
  | cons a w' => rfl

theorem pySplitCore_good (cs : List Char) :
    (∀ c ∈ (pySplitCore cs).1, isPySpace c = false) ∧
    ∀ w ∈ (pySplitCore cs).2, goodWord w := by
  induction cs with
  | nil => simp [pySplitCore]
  | cons c cs ih =>
    obtain ⟨ih1, ih2⟩ := ih
    cases hc : isPySpace c with
    | true =>
      simp only [pySplitCore, hc, if_true]
      refine ⟨by simp, ?_⟩
      intro u hu
      by_cases hw : (pySplitCore cs).1.isEmpty
      · rw [if_pos hw] at hu
        exact ih2 u hu
      · rw [if_neg hw] at hu
        rcases List.mem_cons.mp hu with rfl | hu
        · exact ⟨by simpa [List.isEmpty_iff] using hw, ih1⟩
        · exact ih2 u hu
    | false =>
      simp only [pySplitCore, hc, Bool.false_eq_true, if_false]
      refine ⟨?_, ih2⟩
      intro x hx
      rcases List.mem_cons.mp hx with rfl | hx
      · exact hc
      · exact ih1 x hx

theorem pySplit_good (cs : List Char) : ∀ w ∈ pySplit cs, goodWord w := by
  intro w hw
  obtain ⟨h1, h2⟩ := pySplitCore_good cs
  simp only [pySplit] at hw
  by_cases he : (pySplitCore cs).1.isEmpty
  · rw [if_pos he] at hw
    exact h2 w hw
  · rw [if_neg he] at hw
    rcases List.mem_cons.mp hw with rfl | hw
    · exact ⟨by simpa [List.isEmpty_iff] using he, h1⟩
    · exact h2 w hw

theorem pySplitCore_of_no_space (w : List Char)
    (hw : ∀ c ∈ w, isPySpace c = false) : pySplitCore w = (w, []) := by
  induction w with
  | nil => rfl
  | cons c w' ih =>
    have hc : isPySpace c = false := hw c (by simp)
    have hrec := ih fun x hx => hw x (by simp [hx])
    simp [pySplitCore, hc, hrec]

theorem pySplitCore_append_of_no_space (w l : List Char)
    (hw : ∀ c ∈ w, isPySpace c = false) :
    pySplitCore (w ++ l) = (w ++ (pySplitCore l).1, (pySplitCore l).2) := by
  induction w with
  | nil => simp
  | cons c w' ih =>
    have hc : isPySpace c = false := hw c (by simp)
    have hrec := ih fun x hx => hw x (by simp [hx])
    simp [pySplitCore, hc, hrec]

theorem pySplitCore_joinSp :
    ∀ (ws : List (List Char)) (w : List Char), goodWord w →
      (∀ u ∈ ws, goodWord u) →
      pySplitCore (joinSp (w :: ws)) = (w, ws) := by
  intro ws
  induction ws with
  | nil =>
    intro w hw _
    show pySplitCore (joinSp [w]) = (w, [])
    have hj : joinSp [w] = w := rfl
    rw [hj, pySplitCore_of_no_space w hw.2]
  | cons u ws ih =>
    intro w hw hu
    have hj : joinSp (w :: u :: ws) = w ++ ' ' :: joinSp (u :: ws) := rfl
    rw [hj, pySplitCore_append_of_no_space w _ hw.2]
    have hrec := ih u (hu u (by simp)) fun v hv => hu v (by simp [hv])
    have hsp : isPySpace ' ' = true := rfl
    have hne : u.isEmpty = false := goodWord_isEmpty_false (hu u (by simp))
    simp [pySplitCore, hsp, hrec, hne]

theorem pySplit_joinSp (ws : List (List Char))
    (hws : ∀ w ∈ ws, goodWord w) : pySplit (joinSp ws) = ws := by
  cases ws with
  | nil => rfl
  | cons w ws' =>
    have hcore := pySplitCore_joinSp ws' w (hws w (by simp))
      fun u hu => hws u (by simp [hu])
    have hne : w.isEmpty = false := goodWord_isEmpty_false (hws w (by simp))
    simp [pySplit, hcore, hne]

/-- No two consecutive whitespace characters (spec §8, first property). -/
def noConsecutiveWS (l : List Char) : Prop :=
  List.Chain' (fun a b => ¬ (isPySpace a = true ∧ isPySpace b = true)) l

theorem chain'_of_all_nonspace (l : List Char)
    (h : ∀ c ∈ l, isPySpace c = false) : noConsecutiveWS l := by
  induction l with
  | nil => simp [noConsecutiveWS]
  | cons a l ih =>
    rw [noConsecutiveWS, List.chain'_cons']
    refine ⟨?_, ih fun c hc => h c (by simp [hc])⟩
    intro y _ hy
    rw [h a (by simp)] at hy
    exact absurd hy.1 (by simp)

theorem joinSp_ne_nil (w : List Char) (ws : List (List Char))
    (hw : w ≠ []) : joinSp (w :: ws) ≠ [] := by
  cases ws with
  | nil => exact hw
  | cons u ws' =>
    have hj : joinSp (w :: u :: ws') = w ++ ' ' :: joinSp (u :: ws') := rfl
    rw [hj]
    simp

theorem joinSp_head? (w : List Char) (ws : List (List Char)) (hw : w ≠ []) :
    (joinSp (w :: ws)).head? = w.head? := by
  cases w with
  | nil => exact absurd rfl hw
  | cons c w' => cases ws <;> rfl

theorem joinSp_chain' (ws : List (List Char))
    (hws : ∀ w ∈ ws, goodWord w) : noConsecutiveWS (joinSp ws) := by
  induction ws with
  | nil => simp [noConsecutiveWS, joinSp]
  | cons w ws ih =>
    cases ws with
    | nil =>
      exact chain'_of_all_nonspace w (hws w (by simp)).2
    | cons u ws' =>
      have hj : joinSp (w :: u :: ws') = w ++ ' ' :: joinSp (u :: ws') := rfl
      have hgw : goodWord w := hws w (by simp)
      have hgu : goodWord u := hws u (by simp)
      have hrest : ∀ v ∈ u :: ws', goodWord v := fun v hv => hws v (by simp [hv])
      rw [noConsecutiveWS, hj, List.chain'_append]
      refine ⟨chain'_of_all_nonspace w hgw.2, ?_, ?_⟩
      · rw [List.chain'_cons']
        refine ⟨?_, ih hrest⟩
        intro y hy hcon
        rw [joinSp_head? u ws' hgu.1] at hy
        have hyu : y ∈ u := List.mem_of_mem_head? hy
        rw [hgu.2 y hyu] at hcon
        exact absurd hcon.2 (by simp)
      · intro x hx y hy hcon
        have hxw : x ∈ w := List.mem_of_getLast?_eq_some hx
        rw [hgw.2 x hxw] at hcon
        exact absurd hcon.1 (by simp)

theorem joinSp_getLast? (ws : List (List Char))
    (hws : ∀ w ∈ ws, goodWord w) :
    ∀ c, (joinSp ws).getLast? = some c → isPySpace c = false := by
  induction ws with
  | nil => intro c hc; simp [joinSp] at hc
  | cons w ws ih =>
    intro c hc
    cases ws with
    | nil =>
      have hj : joinSp [w] = w := rfl
      rw [hj] at hc
      exact (hws w (by simp)).2 c (List.mem_of_getLast?_eq_some hc)
    | cons u ws' =>
      have hj : joinSp (w :: u :: ws') = w ++ ' ' :: joinSp (u :: ws') := rfl
      rw [hj, List.getLast?_append_of_ne_nil _ (by simp)] at hc
      have hgu : goodWord u := hws u (by simp)
      have hne : joinSp (u :: ws') ≠ [] := joinSp_ne_nil u ws' hgu.1
      have hstep : (' ' :: joinSp (u :: ws')).getLast? =
          (joinSp (u :: ws')).getLast? := by
        have : (' ' :: joinSp (u :: ws')) = [' '] ++ joinSp (u :: ws') := rfl
        rw [this, List.getLast?_append_of_ne_nil _ hne]
      rw [hstep] at hc
      exact ih (fun v hv => hws v (by simp [hv])) c hc

theorem joinSp_head_nonspace (ws : List (List Char))
    (hws : ∀ w ∈ ws, goodWord w) :
    ∀ c, (joinSp ws).head? = some c → isPySpace c = false := by
  intro c hc
  cases ws with
  | nil => simp [joinSp] at hc
  | cons w ws' =>
    rw [joinSp_head? w ws' (hws w (by simp)).1] at hc
    exact (hws w (by simp)).2 c (List.mem_of_mem_head? hc)

theorem pyStripL_of_edges (l : List Char)
    (h1 : ∀ c, l.head? = some c → isPySpace c = false)
    (h2 : ∀ c, l.getLast? = some c → isPySpace c = false) :
    pyStripL l = l := by
  have d1 : l.dropWhile isPySpace = l := by
    cases l with
    | nil => rfl
    | cons a l' =>
      rw [List.dropWhile_cons, if_neg]
      rw [h1 a rfl]
      simp
  rw [pyStripL, d1]
  have d2 : l.reverse.dropWhile isPySpace = l.reverse := by
    cases hr : l.reverse with
    | nil => rfl
    | cons a r' =>
      rw [List.dropWhile_cons, if_neg]
      have hlast : l.getLast? = some a := by
        rw [← List.head?_reverse, hr]
        rfl
      rw [h2 a hlast]
      simp
  rw [d2, List.reverse_reverse]

theorem joinSp_cons_length (w : List Char) (ws : List (List Char)) :
    (joinSp (w :: ws)).length =
      w.length + (if ws = [] then 0 else 1 + (joinSp ws).length) := by
  cases ws with
  | nil => simp [joinSp]
  | cons u us =>
    have hj : joinSp (w :: u :: us) = w ++ ' ' :: joinSp (u :: us) := rfl
    rw [hj]
    simp only [List.length_append, List.length_cons]
    rw [if_neg (by simp)]
    omega

theorem pySplit_eq_of_core (cs : List Char) (w : List Char)
    (ws : List (List Char)) (hp : pySplitCore cs = (w, ws)) :
    pySplit cs = if w = [] then ws else w :: ws := by
  rw [pySplit, hp]
  cases w with
  | nil => simp
  | cons a w' => simp

theorem joinSp_pySplit_length_le (cs : List Char) :
    (joinSp (pySplit cs)).length +
      (if (pySplitCore cs).1 = [] ∧ (pySplitCore cs).2 ≠ [] then 1 else 0) ≤
      cs.length := by
  induction cs with
  | nil => simp [pySplit, pySplitCore, joinSp]
  | cons c cs ih =>
    rcases hp : pySplitCore cs with ⟨w, ws⟩
    rw [hp] at ih
    simp only at ih
    rw [pySplit_eq_of_core cs w ws hp] at ih
    cases hc : isPySpace c with
    | true =>
      have hcore : pySplitCore (c :: cs) =
          ([], if w.isEmpty then ws else w :: ws) := by
        simp [pySplitCore, hc, hp]
      have hclose : (if w.isEmpty then ws else w :: ws) =
          if w = [] then ws else w :: ws := by
        cases w <;> simp
      have hps' : pySplit (c :: cs) = if w = [] then ws else w :: ws := by
        rw [pySplit_eq_of_core (c :: cs) [] _ hcore, if_pos rfl, hclose]
      rw [hps']
      simp only [hcore, hclose, List.length_cons]
      by_cases hw : w = []
      · subst hw
        by_cases hws : ws = []
        · subst hws
          simp at ih ⊢
          omega
        · simp [hws] at ih ⊢
          omega
      · simp [hw] at ih ⊢
        omega
    | false =>
      have hcore : pySplitCore (c :: cs) = (c :: w, ws) := by
        simp [pySplitCore, hc, hp]
      have hps' : pySplit (c :: cs) = (c :: w) :: ws := by
        rw [pySplit_eq_of_core (c :: cs) (c :: w) ws hcore, if_neg (by simp)]
      rw [hps']
      simp only [hcore, List.length_cons]
      rw [if_neg (by simp), joinSp_cons_length]
      by_cases hw : w = []
      · subst hw
        rw [if_pos rfl] at ih
        by_cases hws : ws = []
        · subst hws
          simp
        · rw [if_pos ⟨rfl, hws⟩] at ih
          rw [if_neg hws]
          simp only [List.length_cons, List.length_nil]
          omega
      · rw [if_neg hw, if_neg (fun hcon => hw hcon.1), joinSp_cons_length] at ih
        simp only [List.length_cons]
        omega

/-! ### Structure of the cleaner -/

/-- The per-word effect of the two source `str.replace` calls. -/
def ligFix (w : List Char) : List Char :=
  replaceAll ['ï', '¬', '‚'] ['f', 'l'] (replaceAll ['ï', '¬'] ['f', 'i'] w)

theorem cleanTextL_eq_joinSp (cs : List Char) :
    cleanTextL cs = joinSp ((pySplit cs).map ligFix) := by
  rw [cleanTextL,
    replaceAll_joinSp ['ï', '¬'] ['f', 'i'] (by simp) (by decide) (pySplit cs),
    replaceAll_joinSp ['ï', '¬', '‚'] ['f', 'l'] (by simp) (by decide),
    List.map_map]
  rfl

theorem goodWord_ligFix (w : List Char) (hw : goodWord w) :
    goodWord (ligFix w) := by
  constructor
  · exact replaceAll_ne_nil _ _ (by simp) _
      (replaceAll_ne_nil _ _ (by simp) _ hw.1)
  · intro c hc
    rcases replaceAllAux_mem _ _ _ _ c hc with h | h
    · rcases replaceAllAux_mem _ _ _ _ c h with h' | h'
      · exact hw.2 c h'
      · rcases List.mem_cons.mp h' with rfl | h''
        · rfl
        · rcases List.mem_cons.mp h'' with rfl | h'''
          · rfl
          · simp at h'''
    · rcases List.mem_cons.mp h with rfl | h''
      · rfl
      · rcases List.mem_cons.mp h'' with rfl | h'''
        · rfl
        · simp at h'''

theorem goodWords_map_ligFix (cs : List Char) :
    ∀ w ∈ (pySplit cs).map ligFix, goodWord w := by
  intro w hw
  rcases List.mem_map.mp hw with ⟨u, hu, rfl⟩
  exact goodWord_ligFix u (pySplit_good cs u hu)

theorem ligFix_idem (w : List Char) : ligFix (ligFix w) = ligFix w := by
  have h1 : ligFix w = replaceAll ['ï', '¬'] ['f', 'i'] w :=
    replaceAll_fl_after_fi w
  rw [h1, ligFix, replaceAll_fi_idem, replaceAll_fl_after_fi]

theorem cleanTextL_idem (cs : List Char) :
    cleanTextL (cleanTextL cs) = cleanTextL cs := by
  rw [cleanTextL_eq_joinSp cs]
  rw [show cleanTextL (joinSp ((pySplit cs).map ligFix)) =
      replaceAll ['ï', '¬', '‚'] ['f', 'l']
        (replaceAll ['ï', '¬'] ['f', 'i']
          (joinSp (pySplit (joinSp ((pySplit cs).map ligFix))))) from rfl]
  rw [pySplit_joinSp _ (goodWords_map_ligFix cs)]
  rw [replaceAll_joinSp ['ï', '¬'] ['f', 'i'] (by simp) (by decide),
    replaceAll_joinSp ['ï', '¬', '‚'] ['f', 'l'] (by simp) (by decide),
    List.map_map, List.map_map]
  congr 1
  apply List.map_congr_left
  intro w _
  exact ligFix_idem w

theorem joinSp_map_length_le (f : List Char → List Char)
    (hf : ∀ w, (f w).length ≤ w.length) :
    ∀ ws : List (List Char), (joinSp (ws.map f)).length ≤ (joinSp ws).length := by
  intro ws
  induction ws with
  | nil => simp
  | cons w ws ih =>
    cases ws with
    | nil =>
      simpa [joinSp] using hf w
    | cons u us =>
      have h1 : joinSp ((w :: u :: us).map f) =
          f w ++ ' ' :: joinSp ((u :: us).map f) := rfl
      have h2 : joinSp (w :: u :: us) = w ++ ' ' :: joinSp (u :: us) := rfl
      rw [h1, h2]
      simp only [List.length_append, List.length_cons]
      have := hf w
      omega

theorem ligFix_length_le (w : List Char) : (ligFix w).length ≤ w.length := by
  have h1 : (replaceAll ['ï', '¬'] ['f', 'i'] w).length = w.length :=
    replaceAllAux_length_eq _ _ (by simp) _ _
  have h2 : (replaceAll ['ï', '¬', '‚'] ['f', 'l']
      (replaceAll ['ï', '¬'] ['f', 'i'] w)).length ≤
      (replaceAll ['ï', '¬'] ['f', 'i'] w).length :=
    replaceAllAux_length_le _ _ (by simp) _ _
  rw [ligFix]
  omega

theorem cleanTextL_length_le (cs : List Char) :
    (cleanTextL cs).length ≤ cs.length := by
  rw [cleanTextL_eq_joinSp]
  have h1 := joinSp_map_length_le ligFix ligFix_length_le (pySplit cs)
  have h2 := joinSp_pySplit_length_le cs
  omega

theorem cleanTextL_head_nonspace (cs : List Char) :
    ∀ c, (cleanTextL cs).head? = some c → isPySpace c = false := by
  rw [cleanTextL_eq_joinSp]
  exact joinSp_head_nonspace _ (goodWords_map_ligFix cs)

theorem cleanTextL_getLast_nonspace (cs : List Char) :
    ∀ c, (cleanTextL cs).getLast? = some c → isPySpace c = false := by
  rw [cleanTextL_eq_joinSp]
  exact joinSp_getLast? _ (goodWords_map_ligFix cs)

theorem pyStripL_cleanTextL (cs : List Char) :
    pyStripL (cleanTextL cs) = cleanTextL cs :=
  pyStripL_of_edges _ (cleanTextL_head_nonspace cs) (cleanTextL_getLast_nonspace cs)

theorem cleanTextL_noConsecutiveWS (cs : List Char) :
    noConsecutiveWS (cleanTextL cs) := by
  rw [cleanTextL_eq_joinSp]
  exact joinSp_chain' _ (goodWords_map_ligFix cs)

theorem clean_text_data (t : String) : (clean_text t).data = cleanTextL t.data := rfl

theorem pyStrip_clean_text (t : String) : pyStrip (clean_text t) = clean_text t := by
  show (⟨pyStripL (clean_text t).data⟩ : String) = clean_text t
  rw [clean_text_data, pyStripL_cleanTextL]
  rfl

/-- C4: for every input string, the cleaned text contains no two
consecutive whitespace characters, and cleaning is idempotent, so in
particular the length of the twice-cleaned text equals the length of the
once-cleaned text. -/
theorem c4_normalize_idempotent (t : String) :
    noConsecutiveWS (clean_text t).data ∧
    (clean_text (clean_text t)).length = (clean_text t).length := by
  refine ⟨by rw [clean_text_data]; exact cleanTextL_noConsecutiveWS t.data, ?_⟩
  have h : clean_text (clean_text t) = clean_text t := by
    show (⟨cleanTextL (clean_text t).data⟩ : String) = clean_text t
    rw [clean_text_data, cleanTextL_idem]
    rfl
  rw [h]

/-- C9: for every input string, the standalone `clean_text` function and
the method `SmartPDFProcessor._clean_text` return identical results. -/
theorem c9_clean_text_eq_method (self : SmartPDFProcessor) (t : String) :
    self._clean_text t = clean_text t := rfl

/-- C10: `clean_text` discards leading and trailing whitespace (its result
is a fixed point of `strip`, and its first and last characters are
non-whitespace), and its result is never longer than the input. -/
theorem c10_clean_text_trimmed (t : String) :
    pyStrip (clean_text t) = clean_text t ∧
    (clean_text t).length ≤ t.length ∧
    (∀ c, (clean_text t).data.head? = some c → isPySpace c = false) ∧
    (∀ c, (clean_text t).data.getLast? = some c → isPySpace c = false) := by
  refine ⟨pyStrip_clean_text t, ?_, ?_, ?_⟩
  · show (cleanTextL t.data).length ≤ t.data.length
    exact cleanTextL_length_le t.data
  · rw [clean_text_data]
    exact cleanTextL_head_nonspace t.data
  · rw [clean_text_data]
    exact cleanTextL_getLast_nonspace t.data

/-- C3 at the spec's example and at the source's own second replacement
target: the code collapses the whitespace of the example but leaves its
U+FB01 ligature characters unchanged, so the claimed output
"The financial report shows fiscal growth." is not produced; and the
three-character artifact U+00EF U+00AC U+201A is mapped to "fi‚" rather
than "fl", because the first replacement consumes its two-character
prefix before the second replacement can match. -/
theorem c3_ligature_divergence :
    clean_text "The  ﬁnancial   report\n\nshows ﬁscal growth." =
      "The ﬁnancial report shows ﬁscal growth." ∧
    clean_text "The  ﬁnancial   report\n\nshows ﬁscal growth." ≠
      "The financial report shows fiscal growth." ∧
    clean_text ⟨['ï', '¬', '‚']⟩ = ⟨['f', 'i', '‚']⟩ ∧
    clean_text ⟨['ï', '¬', '‚']⟩ ≠ "fl" := by
  exact ⟨by decide, by decide, by decide, by decide⟩

/-! ### The page filter of process_pdf -/

theorem flatMap_skip_eq_filter {α β : Type} (l : List α) (q : α → Prop)
    [DecidablePred q] (f : α → List β) :
    (l.flatMap fun a => if q a then [] else f a) =
      (l.filter fun a => ¬ q a).flatMap f := by
  induction l with
  | nil => rfl
  | cons a l ih =>
    rw [List.flatMap_cons, List.filter_cons, ih]
    by_cases h : q a
    · rw [if_pos h, if_neg (by simp [h]), List.nil_append]
    · rw [if_neg h, if_pos (by simp [h]), List.flatMap_cons]

/-- C1: the page filter inside `process_pdf` keeps exactly the pages whose
cleaned content length is at least 50 (equivalently, drops exactly those
below 50), and every chunk of the result comes from a kept page, so no page
whose normalized content length is below the minimum ever contributes
chunks. -/
theorem c1_page_filter (self : SmartPDFProcessor) (pages : List PageDoc) :
    self.process_pdf pages =
      (pages.enum.filter fun pr =>
          50 ≤ (clean_text pr.2.page_content).length).flatMap
        (self.pageChunks pages.length) ∧
    ∀ c ∈ self.process_pdf pages,
      ∃ pr, pr ∈ pages.enum ∧ 50 ≤ (clean_text pr.2.page_content).length ∧
        c ∈ self.pageChunks pages.length pr := by
  have hiff : ∀ s : String, (¬ (pyStrip (self._clean_text s)).length < 50) ↔
      50 ≤ (clean_text s).length := by
    intro s
    have hs : pyStrip (self._clean_text s) = clean_text s := by
      show pyStrip (clean_text s) = clean_text s
      exact pyStrip_clean_text s
    rw [hs]
    omega
  have heq : self.process_pdf pages =
      (pages.enum.filter fun pr =>
          50 ≤ (clean_text pr.2.page_content).length).flatMap
        (self.pageChunks pages.length) := by
    show (pages.enum.flatMap fun pr =>
        if (pyStrip (self._clean_text pr.2.page_content)).length < 50 then []
        else self.pageChunks pages.length pr) = _
    rw [flatMap_skip_eq_filter]
    congr 1
    apply List.filter_congr
    intro pr _
    rw [decide_eq_decide]
    exact hiff pr.2.page_content
  refine ⟨heq, ?_⟩
  intro c hc
  rw [heq] at hc
  rcases List.mem_flatMap.mp hc with ⟨pr, hpr, hcm⟩
  rcases List.mem_filter.mp hpr with ⟨hmem, hcond⟩
  exact ⟨pr, hmem, of_decide_eq_true hcond, hcm⟩

/-! ### Chunk metadata -/

theorem getKey_setKey_same (l : List (String × MVal)) (k : String) (v : MVal) :
    getKey (setKey l k v) k = some v := by
  induction l with
  | nil => simp [setKey, getKey]
  | cons p l ih =>
    obtain ⟨k', v'⟩ := p
    by_cases h : k' = k
    · simp [setKey, getKey, h]
    · simp [setKey, getKey, h, ih]

theorem getKey_setKey_ne (l : List (String × MVal)) (k k2 : String)
    (v : MVal) (hne : k2 ≠ k) : getKey (setKey l k v) k2 = getKey l k2 := by
  have hne' : k ≠ k2 := Ne.symm hne
  induction l with
  | nil => simp [setKey, getKey, hne']
  | cons p l ih =>
    obtain ⟨k', v'⟩ := p
    by_cases h : k' = k
    · subst h
      simp [setKey, getKey, hne']
    · simp [setKey, getKey, h, ih]

theorem getKey_enhance_page (parent : List (String × MVal))
    (page total cc : Nat) :
    getKey (enhanceMetadata parent page total cc) "page" =
      some (.nat page) := by
  rw [enhanceMetadata, getKey_setKey_ne _ _ _ _ (by decide),
    getKey_setKey_ne _ _ _ _ (by decide),
    getKey_setKey_ne _ _ _ _ (by decide), getKey_setKey_same]

theorem getKey_enhance_total (parent : List (String × MVal))
    (page total cc : Nat) :
    getKey (enhanceMetadata parent page total cc) "total_pages" =
      some (.nat total) := by
  rw [enhanceMetadata, getKey_setKey_ne _ _ _ _ (by decide),
    getKey_setKey_ne _ _ _ _ (by decide), getKey_setKey_same]

theorem getKey_enhance_method (parent : List (String × MVal))
    (page total cc : Nat) :
    getKey (enhanceMetadata parent page total cc) "chunk_method" =
      some (.str "smart_pdf_processor") := by
  rw [enhanceMetadata, getKey_setKey_ne _ _ _ _ (by decide), getKey_setKey_same]

theorem getKey_enhance_char_count (parent : List (String × MVal))
    (page total cc : Nat) :
    getKey (enhanceMetadata parent page total cc) "char_count" =
      some (.nat cc) := by
  rw [enhanceMetadata, getKey_setKey_same]

theorem getKey_enhance_other (parent : List (String × MVal))
    (page total cc : Nat) (k : String) (h1 : k ≠ "page")
    (h2 : k ≠ "total_pages") (h3 : k ≠ "chunk_method")
    (h4 : k ≠ "char_count") :
    getKey (enhanceMetadata parent page total cc) k = getKey parent k := by
  rw [enhanceMetadata, getKey_setKey_ne _ _ _ _ h4, getKey_setKey_ne _ _ _ _ h3,
    getKey_setKey_ne _ _ _ _ h2, getKey_setKey_ne _ _ _ _ h1]

/-- A one-page input whose cleaned content is 60 characters long. -/
def c6Page : PageDoc :=
  ⟨"aaaaaaaaaaaaaaaaaaaaaaaaaaaaaaaaaaaaaaaaaaaaaaaaaaaaaaaaaaaa",
   [("source", .str "x.pdf"), ("page", .nat 0)]⟩

/-- C6 counterexample: processing `c6Page` yields exactly one chunk, and
that chunk's metadata has no `chunk_index` key, contrary to the claim that
every chunk's metadata carries a `chunk_index` field. -/
theorem c6_no_chunk_index :
    (smartPDFProcessorDefault.process_pdf [c6Page]).map
      (fun c => getKey c.metadata "chunk_index") = [none] := by decide

/-- C6 amended: every chunk produced by `process_pdf` carries a
`char_count` field and the parent metadata (page and source) of the page it
came from — a `page` field is present (alongside `total_pages` and
`chunk_method`), and every parent metadata key other than the four the
processor sets (`page`, `total_pages`, `chunk_method`, `char_count`) is
inherited unchanged, in particular `source` — but no `chunk_index` field is
added, so `chunk_index` is present exactly when the parent metadata already
had it. -/
theorem c6_chunk_metadata (self : SmartPDFProcessor) (pages : List PageDoc)
    (c : ChunkDoc) (hc : c ∈ self.process_pdf pages) :
    ∃ pr, pr ∈ pages.enum ∧
      getKey c.metadata "char_count" =
        some (.nat (clean_text pr.2.page_content).length) ∧
      getKey c.metadata "page" = some (.nat (pr.1 + 1)) ∧
      getKey c.metadata "total_pages" = some (.nat pages.length) ∧
      getKey c.metadata "chunk_method" = some (.str "smart_pdf_processor") ∧
      (∀ k : String, k ≠ "page" → k ≠ "total_pages" → k ≠ "chunk_method" →
        k ≠ "char_count" →
        getKey c.metadata k = getKey pr.2.metadata k) ∧
      getKey c.metadata "source" = getKey pr.2.metadata "source" ∧
      getKey c.metadata "chunk_index" = getKey pr.2.metadata "chunk_index" := by
  have hc' : c ∈ pages.enum.flatMap fun pr =>
      if (pyStrip (self._clean_text pr.2.page_content)).length < 50 then []
      else self.pageChunks pages.length pr := hc
  rcases List.mem_flatMap.mp hc' with ⟨pr, hpr, hcm⟩
  refine ⟨pr, hpr, ?_⟩
  split at hcm
  · simp at hcm
  · have hcm' : c ∈ (chunk (self._clean_text pr.2.page_content)
        self.chunk_size self.chunk_overlap self.separators).map
        (fun s => (⟨s, enhanceMetadata pr.2.metadata (pr.1 + 1) pages.length
          (self._clean_text pr.2.page_content).length⟩ : ChunkDoc)) := hcm
    rcases List.mem_map.mp hcm' with ⟨s, _, rfl⟩
    refine ⟨getKey_enhance_char_count _ _ _ _, getKey_enhance_page _ _ _ _,
      getKey_enhance_total _ _ _ _, getKey_enhance_method _ _ _ _,
      fun k h1 h2 h3 h4 => getKey_enhance_other _ _ _ _ k h1 h2 h3 h4,
      getKey_enhance_other _ _ _ _ _ (by decide) (by decide) (by decide)
        (by decide),
      getKey_enhance_other _ _ _ _ _ (by decide) (by decide) (by decide)
        (by decide)⟩

/-- Witness for the amended C6 at the concrete one-page input. -/
theorem c6_chunk_metadata_witness :
    ∃ pr, pr ∈ [c6Page].enum ∧
      getKey (ChunkDoc.metadata
        ⟨c6Page.page_content,
         enhanceMetadata c6Page.metadata 1 1 60⟩) "char_count" =
          some (.nat (clean_text pr.2.page_content).length) ∧
      getKey (ChunkDoc.metadata
        ⟨c6Page.page_content,
         enhanceMetadata c6Page.metadata 1 1 60⟩) "page" =
          some (.nat (pr.1 + 1)) ∧
      getKey (ChunkDoc.metadata
        ⟨c6Page.page_content,
         enhanceMetadata c6Page.metadata 1 1 60⟩) "total_pages" =
          some (.nat [c6Page].length) ∧
      getKey (ChunkDoc.metadata
        ⟨c6Page.page_content,
         enhanceMetadata c6Page.metadata 1 1 60⟩) "chunk_method" =
          some (.str "smart_pdf_processor") ∧
      (∀ k : String, k ≠ "page" → k ≠ "total_pages" → k ≠ "chunk_method" →
        k ≠ "char_count" →
        getKey (ChunkDoc.metadata
          ⟨c6Page.page_content,
           enhanceMetadata c6Page.metadata 1 1 60⟩) k =
          getKey pr.2.metadata k) ∧
      getKey (ChunkDoc.metadata
        ⟨c6Page.page_content,
         enhanceMetadata c6Page.metadata 1 1 60⟩) "source" =
          getKey pr.2.metadata "source" ∧
      getKey (ChunkDoc.metadata
        ⟨c6Page.page_content,
         enhanceMetadata c6Page.metadata 1 1 60⟩) "chunk_index" =
          getKey pr.2.metadata "chunk_index" :=
  c6_chunk_metadata smartPDFProcessorDefault [c6Page]
    ⟨c6Page.page_content, enhanceMetadata c6Page.metadata 1 1 60⟩ (by decide)
